import Mathlib

/-
  Verification of the WRKT data-preparation scripts.

  The main subject is tools/svg_indexer.py: namespace stripping, side
  inference, the recursive group walker and the derived indices
  (elements, byId, classToIds, counts).  The two slug functions of
  make_media_json.py and xlsx_links_to_json.py are embedded at the end.

  Python strings are modelled as Lean `String` (a sequence of unicode
  code points); single-character processing is done on `String.data`.
-/

set_option maxRecDepth 4000

namespace WRKT

/-! ### Namespace normalizer (svg_indexer.py, lines 22-28) -/

/-- Python constant `NSBRACE_START = "{"`. -/
def NSBRACE_START : String := "\x7b"

/-- `pat` is a leading run of `l` (models Python `str.startswith` and the
anchored step of the substring test `in`). -/
def leadsWith : List Char → List Char → Bool
  | [], _ => true
  | _ :: _, [] => false
  | p :: ps, c :: cs => p = c && leadsWith ps cs

/-- Models Python `s.startswith(pat)`. -/
def pyStartsWith (s pat : String) : Bool :=
  leadsWith pat.data s.data

/-- Everything after the first close brace of the list, or `none` when the
list has no close brace.  Models `tag.split("}", 1)[1]`, whose indexing
raises `IndexError` when no `"}"` occurs. -/
def afterFirstCloseBrace : List Char → Option (List Char)
  | [] => none
  | c :: cs => if c = '\x7d' then some cs else afterFirstCloseBrace cs

/-- Model of `strip_ns` (svg_indexer.py lines 24-28).  `none` models the
`IndexError` raised by `tag.split("}", 1)[1]` when the tag starts with
a brace but has no closing brace. -/
def strip_ns (tag : String) : Option String :=
  if pyStartsWith tag NSBRACE_START then
    (afterFirstCloseBrace tag.data).map String.mk
  else
    some tag

/-! ### Class attribute splitting (svg_indexer.py, line 72) -/

/-- Model of `cls_raw.replace("\n", " ")`: the pattern is a single
character, so the replacement is a character-wise map. -/
def replaceNl (l : List Char) : List Char :=
  l.map fun c => if c = '\n' then ' ' else c

/-- Model of Python `str.split(" ")`: cut at every space, keeping empty
chunks (`"a  b".split(" ") == ["a", "", "b"]`, `"".split(" ") == [""]`). -/
def splitSpaces : List Char → List (List Char)
  | [] => [[]]
  | c :: cs =>
    let r := splitSpaces cs
    if c = ' ' then [] :: r
    else
      match r with
      | [] => [[c]]
      | t :: ts => (c :: t) :: ts

/-- Model of svg_indexer.py line 72:
`classes = [c for c in cls_raw.replace("\n", " ").split(" ") if c]`. -/
def splitClasses (raw : String) : List String :=
  ((splitSpaces (replaceNl raw.data)).filter (fun t => ¬ t.isEmpty)).map String.mk

/-! ### Side resolution (svg_indexer.py, lines 42-49) -/

/-- Python truthiness of an optional string: `None` and `""` are falsy. -/
def truthy : Option String → Bool
  | none => false
  | some s => !s.isEmpty

/-- Substring occurrence: models Python `pat in s`. -/
def hasSub (pat : List Char) : List Char → Bool
  | [] => leadsWith pat []
  | c :: cs => leadsWith pat (c :: cs) || hasSub pat cs

/-- Models Python `sub in s` on strings. -/
def strHasSub (s sub : String) : Bool :=
  hasSub sub.data s.data

/-- Models `os.path.basename` for POSIX paths: the part after the last
slash. -/
def basename (p : String) : String :=
  String.mk ((p.data.reverse.takeWhile (fun c => c ≠ '/')).reverse)

/-- ASCII lowering of one character, as Python `str.lower` acts on the
ASCII range relevant to file names. -/
def pyLowerChar (c : Char) : Char :=
  if 65 ≤ c.toNat ∧ c.toNat ≤ 90 then Char.ofNat (c.toNat + 32) else c

/-- Models Python `str.lower()` (character-wise, ASCII range). -/
def pyLower (s : String) : String :=
  String.mk (s.data.map pyLowerChar)

/-- Model of svg_indexer.py lines 42-49: side label resolution inside
`parse_svg`.  `if side_hint:` is Python truthiness, so an empty-string
hint falls through to filename inference. -/
def resolve_side (path : String) (side_hint : Option String) : String :=
  let name := pyLower (basename path)
  if truthy side_hint then side_hint.getD ""
  else if strHasSub name "back" || strHasSub name "posterior" then "back"
  else "front"

/-! ### Data model of the walker (svg_indexer.py, lines 52-108) -/

/-- An XML element as the walker sees it: tag (possibly namespace
qualified), the `id` and `class` attributes (absent → `none`), and the
child elements in document order. -/
inductive SvgNode : Type where
  | mk (tag : String) (idAttr : Option String) (classAttr : Option String)
      (children : List SvgNode)
deriving Repr

/-- The `counts` dictionary (line 66). -/
structure Counts where
  total : Nat
  groups : Nat
  with_id : Nat
  with_class : Nat
deriving Repr, DecidableEq

/-- The `info` record built for each `<g>` (lines 75-81). -/
structure GroupElement where
  id : Option String
  classes : List String
  tag : String
  parentId : Option String
  side : String
deriving Repr, DecidableEq

/-- The mutable state of `walk_svg_groups` (lines 63-66): `byId` is an
insertion-ordered dict, `classToIds` an insertion-ordered dict of
insertion-ordered duplicate-free lists (the Python sets). -/
structure WalkState where
  elements : List GroupElement
  byId : List (String × GroupElement)
  classToIds : List (String × List String)
  counts : Counts
deriving Repr, DecidableEq

/-- The dictionary returned by `walk_svg_groups` (lines 103-108), with
`classToIds` already converted to sorted form (line 101). -/
structure DocumentIndex where
  elements : List GroupElement
  byId : List (String × GroupElement)
  classToIds : List (String × List String)
  counts : Counts
deriving Repr, DecidableEq

def initState : WalkState :=
  { elements := [], byId := [], classToIds := [],
    counts := { total := 0, groups := 0, with_id := 0, with_class := 0 } }

/-- Python dict assignment `d[k] = v`: overwrite in place, append new
keys at the end. -/
def dictInsert (k : String) (v : GroupElement) :
    List (String × GroupElement) → List (String × GroupElement)
  | [] => [(k, v)]
  | (k', v') :: rest =>
    if k' = k then (k, v) :: rest else (k', v') :: dictInsert k v rest

/-- Python `set.add`: a no-op on duplicates (sets modelled as
duplicate-free lists in insertion order). -/
def addSet (x : String) (s : List String) : List String :=
  if x ∈ s then s else s ++ [x]

/-- `class_to_ids[c].add(x)` on a `defaultdict(set)` (line 92). -/
def ctiAdd (c x : String) :
    List (String × List String) → List (String × List String)
  | [] => [(c, [x])]
  | (c', s) :: rest =>
    if c' = c then (c', addSet x s) :: rest else (c', s) :: ctiAdd c x rest

/-- The string inside a truthy optional id (Python uses `el_id` directly
as the dict key once `if el_id:` has passed). -/
def idVal (o : Option String) : String :=
  o.getD ""

/-- The record step of `rec` (svg_indexer.py lines 74-92): record the
node when its tag is `"g"`, update counts, `byId` and `class_to_ids`. -/
def visit (side tagS : String) (el_id : Option String) (classes : List String)
    (parent_id : Option String) (st : WalkState) : WalkState :=
  if tagS = "g" then
    let info : GroupElement :=
      { id := el_id, classes := classes, tag := tagS,
        parentId := parent_id, side := side }
    let st := { st with
      elements := st.elements ++ [info],
      counts := { st.counts with
        total := st.counts.total + 1, groups := st.counts.groups + 1 } }
    let st :=
      if truthy el_id then
        { st with
          counts := { st.counts with with_id := st.counts.with_id + 1 },
          byId := dictInsert (idVal el_id) info st.byId }
      else st
    if classes.isEmpty then st
    else
      let st := { st with
        counts := { st.counts with with_class := st.counts.with_class + 1 } }
      if truthy el_id then
        { st with classToIds :=
            classes.foldl (fun m c => ctiAdd c (idVal el_id) m) st.classToIds }
      else st
  else st

mutual

/-- The recursive `rec` of svg_indexer.py (lines 68-96), with the state
passed explicitly; `none` models an uncaught exception from `strip_ns`. -/
def rec_node (side : String) : SvgNode → Option String → WalkState → Option WalkState
  | SvgNode.mk tagRaw idA clsA children, parent_id, st =>
    match strip_ns tagRaw with
    | none => none
    | some tag =>
      let el_id := idA
      let classes := splitClasses (clsA.getD "")
      let st1 := visit side tag el_id classes parent_id st
      rec_children side children (if truthy el_id then el_id else parent_id) st1

/-- The `for child in list(el): rec(child, el_id or parent_id)` loop
(line 95-96), sequential and aborting on the first exception. -/
def rec_children (side : String) : List SvgNode → Option String → WalkState → Option WalkState
  | [], _, st => some st
  | c :: rest, parent_id, st =>
    match rec_node side c parent_id st with
    | none => none
    | some st' => rec_children side rest parent_id st'

end

/-- Code-point lexicographic comparison of character lists: the order
Python `sorted` uses on strings. -/
def lexLeChars : List Char → List Char → Bool
  | [], _ => true
  | _ :: _, [] => false
  | a :: as, b :: bs =>
    if a.toNat < b.toNat then true
    else if b.toNat < a.toNat then false
    else lexLeChars as bs

/-- Python string comparison `a <= b` (code-point lexicographic). -/
def pyStrLe (a b : String) : Bool :=
  lexLeChars a.data b.data

instance pyStrLeTotal : IsTotal String (fun a b => pyStrLe a b = true) := by
  constructor
  intro a b
  have key : ∀ l1 l2 : List Char,
      lexLeChars l1 l2 = true ∨ lexLeChars l2 l1 = true := by
    intro l1
    induction l1 with
    | nil => intro l2; exact Or.inl rfl
    | cons a as ih =>
      intro l2
      cases l2 with
      | nil => exact Or.inr rfl
      | cons b bs =>
        by_cases h1 : a.toNat < b.toNat
        · left
          simp [lexLeChars, h1]
        · by_cases h2 : b.toNat < a.toNat
          · right
            simp [lexLeChars, h2]
          · rcases ih bs with h | h
            · left
              simp [lexLeChars, h1, h2, h]
            · right
              simp [lexLeChars, h1, h2, h]
  exact key a.data b.data

instance pyStrLeTrans : IsTrans String (fun a b => pyStrLe a b = true) := by
  constructor
  intro a b c hab hbc
  have key : ∀ l1 l2 l3 : List Char, lexLeChars l1 l2 = true →
      lexLeChars l2 l3 = true → lexLeChars l1 l3 = true := by
    intro l1
    induction l1 with
    | nil => intro l2 l3 _ _; rfl
    | cons a as ih =>
      intro l2 l3 h12 h23
      cases l2 with
      | nil => simp [lexLeChars] at h12
      | cons b bs =>
        cases l3 with
        | nil => simp [lexLeChars] at h23
        | cons c cs =>
          simp only [lexLeChars] at h12 h23 ⊢
          split_ifs at h12 h23 ⊢ with g1 g2 g3 g4 g5 g6 <;>
            first
            | rfl
            | omega
            | (exact ih bs cs h12 h23)
  exact key a.data b.data c.data hab hbc

instance keyRelTotal :
    IsTotal (String × List String) (fun p q => pyStrLe p.1 q.1 = true) :=
  ⟨fun p q => pyStrLeTotal.total p.1 q.1⟩

instance keyRelTrans :
    IsTrans (String × List String) (fun p q => pyStrLe p.1 q.1 = true) :=
  ⟨fun p q r h1 h2 => pyStrLeTrans.trans p.1 q.1 r.1 h1 h2⟩

/-- Python `sorted` on a list of strings (code-point order). -/
def sortStrings (l : List String) : List String :=
  List.insertionSort (fun a b => pyStrLe a b = true) l

/-- Python `sorted(class_to_ids.items(), key=lambda kv: kv[0])`. -/
def sortPairsByKey (l : List (String × List String)) : List (String × List String) :=
  List.insertionSort (fun p q => pyStrLe p.1 q.1 = true) l

/-- `walk_svg_groups` (svg_indexer.py lines 52-108): run `rec` from the
root with `parent_id=None`, then convert the class sets to sorted lists
under sorted keys (line 101). -/
def walk_svg_groups (root : SvgNode) (side_label : String) : Option DocumentIndex :=
  (rec_node side_label root none initState).map fun st =>
    { elements := st.elements
      byId := st.byId
      classToIds := (sortPairsByKey st.classToIds).map fun kv => (kv.1, sortStrings kv.2)
      counts := st.counts }

/-- The parent identity handed to children, line 96: `el_id or parent_id`
(Python `or` on optional strings: the left side when truthy, otherwise
the right side). -/
def childParentIdentity (el_id inherited : Option String) : Option String :=
  if truthy el_id then el_id else inherited

mutual

/-- Every tag in the tree is one `strip_ns` succeeds on.  XML element
names cannot contain `"{"`, and ElementTree qualifies namespaced tags as
`"{uri}local"`, so every parsed document satisfies this. -/
def SvgNode.tagsOk : SvgNode → Bool
  | .mk tagRaw _ _ children => (strip_ns tagRaw).isSome && tagsOkList children

def tagsOkList : List SvgNode → Bool
  | [] => true
  | c :: cs => c.tagsOk && tagsOkList cs

end

/-! ### Loader and run model (svg_indexer.py, lines 30-50 and 110-128) -/

/-- Abstract file system: for each path, `none` when no file exists,
`some none` when the file exists but is not well-formed XML, and
`some (some root)` when parsing yields `root`.  Parsed documents carry
ElementTree tags, hence `tagsOk`. -/
structure FileSystem where
  files : String → Option (Option SvgNode)
  wf : ∀ p root, files p = some (some root) → root.tagsOk = true

/-- `parse_svg` (lines 30-50).  The error value is the diagnostic printed
to stderr just before `sys.exit(2)`. -/
def parse_svg (fs : FileSystem) (path : String) (side_hint : Option String) :
    Except String (SvgNode × String) :=
  match fs.files path with
  | none => .error ("ERROR: file not found: " ++ path)
  | some none => .error ("ERROR: failed to parse " ++ path)
  | some (some root) => .ok (root, resolve_side path side_hint)

/-- The combined output written to OUTPUT_JSON (lines 117-120). -/
structure CombinedIndex where
  front : DocumentIndex
  back : DocumentIndex
deriving Repr, DecidableEq

/-- Observable outcome of one run: process exit code, diagnostics on the
error stream, and the output file contents when one is written. -/
structure RunResult where
  exitCode : Nat
  stderr : List String
  output : Option CombinedIndex
deriving Repr, DecidableEq

def FRONT_SVG : String := "/Users/dimitarmihaylov/dev/WRKT/torso.svg"

def BACK_SVG : String := "/Users/dimitarmihaylov/dev/WRKT/torso_back.svg"

/-- `main` (lines 110-128) over an abstract file system and the two input
paths: parse both documents (each aborting the run with exit code 2 on
failure, before any output is written), walk both, write the combined
index and exit 0.  An uncaught walker exception would end the run with
the interpreter's exit code 1; `FileSystem.wf` makes that unreachable. -/
def runWith (fs : FileSystem) (front back : String) : RunResult :=
  match parse_svg fs front none with
  | .error msg => { exitCode := 2, stderr := [msg], output := none }
  | .ok (root_f, side_f) =>
    match parse_svg fs back none with
    | .error msg => { exitCode := 2, stderr := [msg], output := none }
    | .ok (root_b, side_b) =>
      match walk_svg_groups root_f side_f, walk_svg_groups root_b side_b with
      | some idx_front, some idx_back =>
        { exitCode := 0, stderr := [],
          output := some { front := idx_front, back := idx_back } }
      | _, _ => { exitCode := 1, stderr := ["Traceback"], output := none }

/-- The argument-free entry point, on the two configured paths. -/
def main (fs : FileSystem) : RunResult :=
  runWith fs FRONT_SVG BACK_SVG

/-- A file system with no files at all. -/
def fsEmpty : FileSystem :=
  ⟨fun _ => none, fun _ _ h => by cases h⟩

/-! ### The two slug functions (make_media_json.py lines 9-13,
xlsx_links_to_json.py lines 6-9) -/

/-- Character class `[a-z0-9]` (code points 97-122 and 48-57). -/
def isLowerAlnum (c : Char) : Bool :=
  decide ((97 ≤ c.toNat ∧ c.toNat ≤ 122) ∨ (48 ≤ c.toNat ∧ c.toNat ≤ 57))

/-- Character class `[A-Za-z0-9]` (code points 65-90, 97-122, 48-57). -/
def isAlnum (c : Char) : Bool :=
  decide ((65 ≤ c.toNat ∧ c.toNat ≤ 90) ∨ (97 ≤ c.toNat ∧ c.toNat ≤ 122) ∨
    (48 ≤ c.toNat ∧ c.toNat ≤ 57))

/-- The six characters Python `str.strip()` removes from ASCII text:
space, tab, newline, carriage return, vertical tab, form feed. -/
def isPySpace (c : Char) : Bool :=
  decide (c.toNat = 32 ∨ c.toNat = 9 ∨ c.toNat = 10 ∨ c.toNat = 13 ∨
    c.toNat = 11 ∨ c.toNat = 12)

/-- Model of `re.sub(r"[^X]+", "-", s)` for a character class `X` given
by `p`: each maximal run of characters outside the class becomes one
hyphen.  `inRun` records whether the previous character was inside such
a run. -/
def subRuns (p : Char → Bool) : List Char → Bool → List Char
  | [], _ => []
  | c :: cs, inRun =>
    if p c then c :: subRuns p cs false
    else if inRun then subRuns p cs true
    else '-' :: subRuns p cs true

/-- Model of `re.sub(r"-{2,}", "-", s)`: collapse every run of hyphens
to a single hyphen (runs of length one are already single). -/
def squeezeHyphens : List Char → Bool → List Char
  | [], _ => []
  | c :: cs, afterHyphen =>
    if c = '-' then
      if afterHyphen then squeezeHyphens cs true
      else '-' :: squeezeHyphens cs true
    else c :: squeezeHyphens cs false

/-- Remove the trailing run of characters satisfying `p`. -/
def rdropWhileP (p : Char → Bool) : List Char → List Char
  | [] => []
  | c :: cs =>
    let r := rdropWhileP p cs
    if r.isEmpty && p c then [] else c :: r

/-- Python `str.strip(chars)`: drop the characters of the class from
both ends. -/
def pyStripChars (p : Char → Bool) (l : List Char) : List Char :=
  rdropWhileP p (l.dropWhile p)

/-- `slugify` of make_media_json.py (lines 9-13).  `nfkd` is the shared
first step `unicodedata.normalize("NFKD", s).encode("ascii",
"ignore").decode("ascii")`, identical in both files, kept abstract. -/
def slugify_csv (nfkd : String → String) (s : String) : String :=
  let s1 := nfkd s
  let s2 := s1.data.map pyLowerChar
  let s3 := subRuns isLowerAlnum s2 false
  String.mk (pyStripChars (fun c => c = '-') s3)

/-- `slugify` of xlsx_links_to_json.py (lines 6-9), over the same shared
`nfkd` first step. -/
def slugify_xlsx (nfkd : String → String) (s : String) : String :=
  let s1 := nfkd s
  let s2 := (pyStripChars isPySpace s1.data).map pyLowerChar
  let s3 := subRuns isAlnum s2 false
  let s4 := squeezeHyphens s3 false
  String.mk (pyStripChars (fun c => c = '-') s4)

/-! ### Example documents -/

/-- The nested structure `<g id="A"><g><g id="C"/></g></g>`. -/
def nestedExample : SvgNode :=
  .mk "g" (some "A") none [.mk "g" none none [.mk "g" (some "C") none []]]

/-- A group whose `id` attribute is present but empty, with classes,
between an identified ancestor and an identified descendant:
`<g id="P"><g id="" class="c x"><g id="K"/></g></g>`. -/
def emptyIdExample : SvgNode :=
  .mk "g" (some "P") none
    [.mk "g" (some "") (some "c x") [.mk "g" (some "K") none []]]

/-- Two sibling groups sharing the id `"X"` with different classes:
`<svg><g id="X" class="b a"/><g id="X" class="c"/></svg>`. -/
def dupIdExample : SvgNode :=
  .mk "svg" none none
    [.mk "g" (some "X") (some "b a") [], .mk "g" (some "X") (some "c") []]

/-- The index the walker produces on `dupIdExample` (used by witnesses). -/
def dupIdIndex : DocumentIndex :=
  { elements :=
      [⟨some "X", ["b", "a"], "g", none, "back"⟩,
       ⟨some "X", ["c"], "g", none, "back"⟩],
    byId := [("X", ⟨some "X", ["c"], "g", none, "back"⟩)],
    classToIds := [("a", ["X"]), ("b", ["X"]), ("c", ["X"])],
    counts := ⟨2, 2, 2, 2⟩ }

/-! ## Theorems -/

/-! ### Helper lemmas on `afterFirstCloseBrace` -/

theorem afterFirstCloseBrace_of_not_mem {l : List Char} (h : '\x7d' ∉ l) :
    afterFirstCloseBrace l = none := by
  induction l with
  | nil => rfl
  | cons c cs ih =>
    simp only [List.mem_cons, not_or] at h
    simp [afterFirstCloseBrace, Ne.symm h.1, ih h.2]

theorem afterFirstCloseBrace_append {pre post : List Char} (h : '\x7d' ∉ pre) :
    afterFirstCloseBrace (pre ++ '\x7d' :: post) = some post := by
  induction pre with
  | nil => simp [afterFirstCloseBrace]
  | cons c cs ih =>
    simp only [List.mem_cons, not_or] at h
    simp [afterFirstCloseBrace, Ne.symm h.1, ih h.2]

/-- C6 counterexample: on a tag that begins with `"{"` but has no
closing `"}"`, `strip_ns` does not return the input unchanged — it
fails (`tag.split("}", 1)[1]` raises `IndexError`), modelled as `none`. -/
theorem strip_ns_unclosed_brace_counterexample :
    strip_ns "\x7babc" = none ∧ strip_ns "\x7babc" ≠ some "\x7babc" := by
  decide

/-- C6 (amended): `strip_ns` returns the input unchanged when the tag
does not start with `"{"`; when it starts with `"{"` and contains a
closing `"}"` it returns exactly the part after the first `"}"`; when it
starts with `"{"` but has no `"}"` it fails (raises), so it is not
failure-free. -/
theorem strip_ns_characterization : ∀ tag : String,
    (pyStartsWith tag NSBRACE_START = false → strip_ns tag = some tag) ∧
    (pyStartsWith tag NSBRACE_START = true →
      ('\x7d' ∉ tag.data → strip_ns tag = none) ∧
      (∀ pre post, tag.data = pre ++ '\x7d' :: post → '\x7d' ∉ pre →
        strip_ns tag = some (String.mk post))) := by
  intro tag
  constructor
  · intro h
    simp [strip_ns, h]
  · intro h
    refine ⟨fun hnb => ?_, fun pre post hsplit hpre => ?_⟩
    · simp [strip_ns, h, afterFirstCloseBrace_of_not_mem hnb]
    · simp [strip_ns, h, hsplit, afterFirstCloseBrace_append hpre]

/-- C6 witness: the characterization applied to the qualified tag
`"{ns}g"`. -/
theorem strip_ns_characterization_witness :
    strip_ns "\x7bns\x7dg" = some "g" :=
  ((strip_ns_characterization "\x7bns\x7dg").2 rfl).2
    ['\x7b', 'n', 's'] ['g'] rfl (by decide)

/-! ### Side resolution (C7) -/

/-- C7 counterexample: with path `torso_back.svg` and the accepted hint
`""`, the hint is not used verbatim — `if side_hint:` treats the empty
string as absent and filename inference returns `"back"`. -/
theorem side_resolution_counterexample :
    resolve_side "torso_back.svg" (some "") = "back" ∧ ("back" : String) ≠ "" := by
  decide

/-- C7 (amended): a non-empty side hint is returned verbatim; an
empty-string hint is treated as if no hint were given; without a hint
the side is `"back"` exactly when the lowercased base name contains
`"back"` or `"posterior"`, else `"front"`; so `torso_back.svg` with no
hint yields `"back"`, `torso.svg` yields `"front"`, and an explicit
`"back"` hint overrides a `"front"`-looking filename. -/
theorem side_resolution_spec : ∀ path h : String,
    (h ≠ "" → resolve_side path (some h) = h) ∧
    resolve_side path (some "") = resolve_side path none ∧
    resolve_side path none =
      (if strHasSub (pyLower (basename path)) "back"
          || strHasSub (pyLower (basename path)) "posterior"
        then "back" else "front") ∧
    resolve_side "torso_back.svg" none = "back" ∧
    resolve_side "torso.svg" none = "front" ∧
    resolve_side "torso.svg" (some "back") = "back" := by
  intro path h
  refine ⟨fun hne => ?_, ?_, ?_, by decide, by decide, by decide⟩
  · simp [resolve_side, truthy, String.isEmpty_iff, hne]
  · rfl
  · simp [resolve_side, truthy]

/-- C7 witness: a non-empty hint (on a path it disagrees with) is
returned verbatim. -/
theorem side_resolution_spec_witness :
    resolve_side "diagrams/torso_back.svg" (some "front") = "front" :=
  (side_resolution_spec "diagrams/torso_back.svg" "front").1 (by decide)

/-! ### Parent-identity propagation (C1) and empty-string ids (C10) -/

/-- C1: every node — of any tag — hands its children the parent identity
`el_id or parent_id`: its own id when that is present and non-empty,
otherwise the inherited one; the record step itself uses the *inherited*
identity.  Consequently, on `<g id="A"><g><g id="C"/></g></g>` the
innermost recorded element's `parentId` is `"A"`, skipping the
unidentified middle group. -/
theorem parent_identity_propagation :
    (∀ (side tagRaw : String) (idA clsA : Option String)
        (children : List SvgNode) (parent_id : Option String) (st : WalkState),
      rec_node side (SvgNode.mk tagRaw idA clsA children) parent_id st =
        match strip_ns tagRaw with
        | none => none
        | some tag =>
          rec_children side children (childParentIdentity idA parent_id)
            (visit side tag idA (splitClasses (clsA.getD "")) parent_id st)) ∧
    (walk_svg_groups nestedExample "front").map
        (fun d => d.elements.map (fun e => e.parentId)) =
      some [none, some "A", some "A"] := by
  constructor
  · intro side tagRaw idA clsA children parent_id st
    rfl
  · decide

/-- C10: a group whose id attribute is the empty string is recorded with
`id = ""` (not absent), but is treated as unidentified everywhere else:
its children inherit the previous parent identity, `with_id` is not
incremented, `byId` and `classToIds` are untouched; witnessed on
`<g id="P"><g id="" class="c x"><g id="K"/></g></g>`. -/
theorem empty_string_id_behavior :
    (∀ inherited, childParentIdentity (some "") inherited = inherited) ∧
    (∀ side tagS classes parent_id st,
      (visit side tagS (some "") classes parent_id st).counts.with_id =
          st.counts.with_id ∧
      (visit side tagS (some "") classes parent_id st).byId = st.byId ∧
      (visit side tagS (some "") classes parent_id st).classToIds =
          st.classToIds) ∧
    (∀ side classes parent_id st,
      (visit side "g" (some "") classes parent_id st).elements =
        st.elements ++
          [{ id := some "", classes := classes, tag := "g",
             parentId := parent_id, side := side }]) ∧
    (walk_svg_groups emptyIdExample "front").map (fun d => d.counts.with_id) =
        some 2 ∧
    (walk_svg_groups emptyIdExample "front").map (fun d => d.byId.lookup "") =
        some none ∧
    (walk_svg_groups emptyIdExample "front").map (fun d => d.classToIds) =
        some [] ∧
    (walk_svg_groups emptyIdExample "front").map
        (fun d => d.elements.map (fun e => (e.id, e.parentId))) =
      some [(some "P", none), (some "", some "P"), (some "K", some "P")] := by
  refine ⟨fun inherited => rfl, fun side tagS classes parent_id st => ?_,
    fun side classes parent_id st => ?_, by decide, by decide, by decide, by decide⟩
  · unfold visit
    have ht : truthy (some "") = false := rfl
    split
    · rw [ht]
      simp only [Bool.false_eq_true, if_false]
      split <;> simp
    · simp
  · unfold visit
    have ht : truthy (some "") = false := rfl
    rw [if_pos rfl, ht]
    simp only [Bool.false_eq_true, if_false]
    split <;> simp

/-! ### Class token lemmas (C5) -/

theorem splitSpaces_ne_nil : ∀ l : List Char, splitSpaces l ≠ []
  | [] => by simp [splitSpaces]
  | c :: cs => by
    simp only [splitSpaces]
    split
    · simp
    · split <;> simp

theorem space_not_mem_of_mem_splitSpaces :
    ∀ l t : List Char, t ∈ splitSpaces l → ' ' ∉ t := by
  intro l
  induction l with
  | nil =>
    intro t ht
    simp [splitSpaces] at ht
    simp [ht]
  | cons c cs ih =>
    intro t ht
    simp only [splitSpaces] at ht
    by_cases hc : c = ' '
    · rw [if_pos hc] at ht
      rcases List.mem_cons.mp ht with rfl | h
      · simp
      · exact ih t h
    · rw [if_neg hc] at ht
      cases hs : splitSpaces cs with
      | nil => exact absurd hs (splitSpaces_ne_nil cs)
      | cons t0 ts =>
        rw [hs] at ht
        rcases List.mem_cons.mp ht with rfl | h
        · intro hmem
          rcases List.mem_cons.mp hmem with h1 | h1
          · exact hc h1.symm
          · exact ih t0 (hs ▸ List.mem_cons_self t0 ts) h1
        · exact ih t (hs ▸ List.mem_cons_of_mem t0 h)

theorem mem_of_mem_splitSpaces :
    ∀ l t : List Char, t ∈ splitSpaces l → ∀ a ∈ t, a ∈ l := by
  intro l
  induction l with
  | nil =>
    intro t ht
    simp [splitSpaces] at ht
    simp [ht]
  | cons c cs ih =>
    intro t ht a ha
    simp only [splitSpaces] at ht
    by_cases hc : c = ' '
    · rw [if_pos hc] at ht
      rcases List.mem_cons.mp ht with rfl | h
      · simp at ha
      · exact List.mem_cons_of_mem c (ih t h a ha)
    · rw [if_neg hc] at ht
      cases hs : splitSpaces cs with
      | nil => exact absurd hs (splitSpaces_ne_nil cs)
      | cons t0 ts =>
        rw [hs] at ht
        rcases List.mem_cons.mp ht with rfl | h
        · rcases List.mem_cons.mp ha with rfl | h1
          · exact List.mem_cons_self a cs
          · exact List.mem_cons_of_mem c
              (ih t0 (hs ▸ List.mem_cons_self t0 ts) a h1)
        · exact List.mem_cons_of_mem c
            (ih t (hs ▸ List.mem_cons_of_mem t0 h) a ha)

theorem newline_not_mem_replaceNl (l : List Char) : '\n' ∉ replaceNl l := by
  simp only [replaceNl, List.mem_map, not_exists]
  rintro c ⟨hc, heq⟩
  split at heq <;> simp_all

/-- Every token produced by the class splitter is non-empty and free of
spaces and newlines (but not of other whitespace). -/
theorem splitClasses_tokens (raw : String) :
    ∀ tok ∈ splitClasses raw,
      tok.isEmpty = false ∧ ' ' ∉ tok.data ∧ '\n' ∉ tok.data := by
  intro tok htok
  simp only [splitClasses, List.mem_map, List.mem_filter] at htok
  rcases htok with ⟨t, ⟨hmem, hne⟩, rfl⟩
  refine ⟨?_, ?_, ?_⟩
  · cases t with
    | nil => simp at hne
    | cons a as =>
      rw [Bool.eq_false_iff]
      intro h
      have hd := (String.isEmpty_iff _).mp h
      exact List.cons_ne_nil a as (congrArg String.data hd)
  · exact space_not_mem_of_mem_splitSpaces _ t hmem
  · intro hnl
    exact newline_not_mem_replaceNl raw.data
      (mem_of_mem_splitSpaces _ t hmem '\n' hnl)

/-- C5 counterexample: on the class attribute `"a\tb"` (a tab between
two letters) the code produces the single token `"a\tb"`, which contains
a whitespace character — the code splits only on spaces and newlines,
not on all whitespace. -/
theorem class_split_counterexample :
    splitClasses "a\tb" = ["a\tb"] ∧
    ∃ tok ∈ splitClasses "a\tb", ∃ ch ∈ tok.data, ch.isWhitespace = true := by
  decide

/-! ### Association-list lemmas for the two dictionaries -/

theorem lookup_dictInsert (k : String) (v : GroupElement)
    (m : List (String × GroupElement)) (k' : String) :
    (dictInsert k v m).lookup k' = if k' = k then some v else m.lookup k' := by
  induction m with
  | nil =>
    by_cases h : k' = k
    · simp [dictInsert, List.lookup, h]
    · simp [dictInsert, List.lookup, h, beq_false_of_ne h]
  | cons kv rest ih =>
    obtain ⟨k0, v0⟩ := kv
    by_cases h0 : k0 = k
    · subst h0
      by_cases h : k' = k0
      · simp [dictInsert, List.lookup, h]
      · simp [dictInsert, List.lookup, h, beq_false_of_ne h]
    · by_cases h : k' = k0
      · subst h
        simp [dictInsert, h0, List.lookup, beq_self_eq_true]
      · simp [dictInsert, h0, List.lookup, h, beq_false_of_ne h, ih]

theorem mem_addSet (x y : String) (s : List String) :
    y ∈ addSet x s ↔ y ∈ s ∨ y = x := by
  unfold addSet
  by_cases hx : x ∈ s
  · simp only [if_pos hx]
    constructor
    · exact Or.inl
    · rintro (h | rfl) <;> assumption
  · simp [if_neg hx]

theorem addSet_ne_nil (x : String) (s : List String) : addSet x s ≠ [] := by
  unfold addSet
  split
  · intro h
    simp_all
  · simp

theorem addSet_nodup (x : String) (s : List String) (h : s.Nodup) :
    (addSet x s).Nodup := by
  unfold addSet
  split
  · exact h
  · simp_all [List.nodup_append]

theorem lookup_ctiAdd (c x : String) (m : List (String × List String))
    (c' : String) :
    (ctiAdd c x m).lookup c' =
      if c' = c then
        some (match m.lookup c with | none => [x] | some s => addSet x s)
      else m.lookup c' := by
  induction m with
  | nil =>
    by_cases h : c' = c
    · simp [ctiAdd, List.lookup, h]
    · simp [ctiAdd, List.lookup, h, beq_false_of_ne h]
  | cons kv rest ih =>
    obtain ⟨k0, s0⟩ := kv
    by_cases h0 : k0 = c
    · subst h0
      by_cases h : c' = k0
      · simp [ctiAdd, List.lookup, h]
      · simp [ctiAdd, List.lookup, h, beq_false_of_ne h]
    · by_cases h : c' = k0
      · subst h
        simp [ctiAdd, h0, List.lookup, beq_self_eq_true]
      · simp [ctiAdd, h0, List.lookup, h, beq_false_of_ne h,
          beq_false_of_ne (fun hh => h0 hh.symm), ih]

theorem ctiAdd_mem_iff (c x c' y : String) (m : List (String × List String)) :
    (∃ s, (ctiAdd c x m).lookup c' = some s ∧ y ∈ s) ↔
      ((∃ s, m.lookup c' = some s ∧ y ∈ s) ∨ (c' = c ∧ y = x)) := by
  rw [lookup_ctiAdd]
  by_cases h : c' = c
  · subst h
    cases hm : m.lookup c' with
    | none => simp [hm]
    | some s0 => simp [hm, mem_addSet]
  · simp [h]

theorem cti_fold_mem (x : String) : ∀ (classes : List String)
    (m : List (String × List String)) (c' y : String),
    (∃ s, ((classes.foldl (fun acc c => ctiAdd c x acc) m).lookup c') = some s ∧ y ∈ s) ↔
      ((∃ s, m.lookup c' = some s ∧ y ∈ s) ∨ (c' ∈ classes ∧ y = x)) := by
  intro classes
  induction classes with
  | nil => simp
  | cons c cs ih =>
    intro m c' y
    simp only [List.foldl_cons]
    rw [ih, ctiAdd_mem_iff]
    constructor
    · rintro ((h | ⟨rfl, rfl⟩) | ⟨hc, rfl⟩)
      · exact Or.inl h
      · exact Or.inr ⟨List.mem_cons_self _ _, rfl⟩
      · exact Or.inr ⟨List.mem_cons_of_mem _ hc, rfl⟩
    · rintro (h | ⟨hc, rfl⟩)
      · exact Or.inl (Or.inl h)
      · rcases List.mem_cons.mp hc with rfl | h2
        · exact Or.inl (Or.inr ⟨rfl, rfl⟩)
        · exact Or.inr ⟨h2, rfl⟩

theorem keys_ctiAdd (c x : String) (m : List (String × List String)) :
    (ctiAdd c x m).map Prod.fst =
      if c ∈ m.map Prod.fst then m.map Prod.fst else m.map Prod.fst ++ [c] := by
  induction m with
  | nil => simp [ctiAdd]
  | cons kv rest ih =>
    obtain ⟨k0, s0⟩ := kv
    by_cases h0 : k0 = c
    · subst h0
      simp [ctiAdd]
    · simp only [ctiAdd, if_neg h0, List.map_cons, List.mem_cons, Ne.symm h0,
        false_or, ih]
      split <;> simp

theorem nodup_keys_ctiAdd (c x : String) (m : List (String × List String))
    (h : (m.map Prod.fst).Nodup) : ((ctiAdd c x m).map Prod.fst).Nodup := by
  rw [keys_ctiAdd]
  split
  · exact h
  · simp_all [List.nodup_append]

theorem nodup_keys_cti_fold (x : String) : ∀ (classes : List String)
    (m : List (String × List String)),
    (m.map Prod.fst).Nodup →
    (((classes.foldl (fun acc c => ctiAdd c x acc) m)).map Prod.fst).Nodup := by
  intro classes
  induction classes with
  | nil => intro m h; exact h
  | cons c cs ih =>
    intro m h
    exact ih (ctiAdd c x m) (nodup_keys_ctiAdd c x m h)

theorem vals_ctiAdd {P : List String → Prop} (c x : String)
    (m : List (String × List String)) (hm : ∀ p ∈ m, P p.2)
    (hbase : P [x]) (hadd : ∀ s, P s → P (addSet x s)) :
    ∀ p ∈ ctiAdd c x m, P p.2 := by
  induction m with
  | nil =>
    intro p hp
    simp [ctiAdd] at hp
    simp [hp, hbase]
  | cons kv rest ih =>
    obtain ⟨k0, s0⟩ := kv
    intro p hp
    by_cases h0 : k0 = c
    · subst h0
      simp only [ctiAdd, if_pos rfl] at hp
      rcases List.mem_cons.mp hp with rfl | h
      · exact hadd s0 (hm (k0, s0) (List.mem_cons_self _ _))
      · exact hm p (List.mem_cons_of_mem _ h)
    · simp only [ctiAdd, if_neg h0] at hp
      rcases List.mem_cons.mp hp with rfl | h
      · exact hm (k0, s0) (List.mem_cons_self _ _)
      · exact ih (fun q hq => hm q (List.mem_cons_of_mem _ hq)) p h

theorem vals_cti_fold {P : List String → Prop} (x : String)
    (hbase : P [x]) (hadd : ∀ s, P s → P (addSet x s)) :
    ∀ (classes : List String) (m : List (String × List String)),
    (∀ p ∈ m, P p.2) →
    ∀ p ∈ classes.foldl (fun acc c => ctiAdd c x acc) m, P p.2 := by
  intro classes
  induction classes with
  | nil => intro m hm; exact hm
  | cons c cs ih =>
    intro m hm
    exact ih (ctiAdd c x m) (vals_ctiAdd c x m hm hbase hadd)

theorem lookup_eq_some_iff_mem {α : Type} {m : List (String × α)}
    (hnd : (m.map Prod.fst).Nodup) (c : String) (s : α) :
    m.lookup c = some s ↔ (c, s) ∈ m := by
  induction m with
  | nil => simp [List.lookup]
  | cons kv rest ih =>
    obtain ⟨k0, s0⟩ := kv
    simp only [List.map_cons, List.nodup_cons] at hnd
    by_cases h : c = k0
    · subst h
      simp only [List.lookup, beq_self_eq_true]
      constructor
      · rintro h1
        simp at h1
        simp [h1]
      · intro h1
        rcases List.mem_cons.mp h1 with h2 | h2
        · simp at h2
          simp [h2]
        · exact absurd (List.mem_map_of_mem Prod.fst h2) hnd.1
    · have : (c == k0) = false := beq_false_of_ne h
      simp only [List.lookup, this, List.mem_cons]
      rw [ih hnd.2]
      constructor
      · exact Or.inr
      · rintro (h2 | h2)
        · exact absurd (congrArg Prod.fst h2) h
        · exact h2

/-! ### A strong induction principle for `SvgNode` -/

theorem SvgNode.strongInduction {P : SvgNode → Prop}
    (h : ∀ (t : String) (i c : Option String) (ch : List SvgNode),
      (∀ n ∈ ch, P n) → P (SvgNode.mk t i c ch)) : ∀ n, P n := by
  have key : ∀ (k : Nat) (n : SvgNode), sizeOf n ≤ k → P n := by
    intro k
    induction k with
    | zero =>
      intro n hn
      cases n with
      | mk t i c ch =>
        simp only [SvgNode.mk.sizeOf_spec] at hn
        omega
    | succ k ih =>
      intro n hn
      cases n with
      | mk t i c ch =>
        apply h
        intro m hm
        apply ih
        have h1 := List.sizeOf_lt_of_mem hm
        simp only [SvgNode.mk.sizeOf_spec] at hn
        omega
  intro n
  exact key (sizeOf n) n le_rfl

/-! ### The walker invariant -/

/-- Everything the claims need to know about a reachable walker state:
counts agree with `elements`, `byId` is the last-write-wins index of the
non-empty ids, and `classToIds` is the class → id-set index over
identified elements. -/
structure StInv (st : WalkState) : Prop where
  total_eq : st.counts.total = st.elements.length
  groups_eq : st.counts.groups = st.elements.length
  with_id_eq :
    st.counts.with_id = (st.elements.filter (fun e => truthy e.id)).length
  with_class_eq :
    st.counts.with_class =
      (st.elements.filter (fun e => !e.classes.isEmpty)).length
  byId_lookup : ∀ k : String, k ≠ "" →
    st.byId.lookup k =
      (st.elements.filter (fun e => e.id = some k)).getLast?
  cti_keys_nodup : (st.classToIds.map Prod.fst).Nodup
  cti_mem : ∀ c y : String,
    (∃ s, st.classToIds.lookup c = some s ∧ y ∈ s) ↔
      (∃ e ∈ st.elements, e.id = some y ∧ truthy e.id = true ∧ c ∈ e.classes)
  cti_vals : ∀ p ∈ st.classToIds, p.2 ≠ [] ∧ p.2.Nodup
  classes_ok : ∀ e ∈ st.elements, ∀ tok ∈ e.classes,
    tok.isEmpty = false ∧ ' ' ∉ tok.data ∧ '\n' ∉ tok.data

theorem StInv_init : StInv initState := by
  constructor <;> simp [initState, List.lookup]

theorem truthy_eq_some {o : Option String} (h : truthy o = true) :
    ∃ s, o = some s ∧ s ≠ "" := by
  cases o with
  | none => simp [truthy] at h
  | some s =>
    refine ⟨s, rfl, fun hs => ?_⟩
    subst hs
    rw [show truthy (some "") = false from rfl] at h
    cases h

theorem not_truthy_ne_some {o : Option String} (h : truthy o = false)
    {k : String} (hk : k ≠ "") : o ≠ some k := by
  rintro rfl
  simp only [truthy, Bool.not_eq_false'] at h
  exact hk ((String.isEmpty_iff k).mp h)

theorem filter_length_append (p : GroupElement → Bool)
    (l : List GroupElement) (e : GroupElement) :
    ((l ++ [e]).filter p).length =
      (l.filter p).length + (if p e then 1 else 0) := by
  cases hp : p e <;> simp [List.filter_append, List.filter_cons, hp]

theorem getLast?_filter_append_pos {p : GroupElement → Bool}
    (l : List GroupElement) (e : GroupElement) (he : p e = true) :
    ((l ++ [e]).filter p).getLast? = some e := by
  simp [List.filter_append, List.filter_cons, he]

theorem getLast?_filter_append_neg {p : GroupElement → Bool}
    (l : List GroupElement) (e : GroupElement) (he : p e = false) :
    ((l ++ [e]).filter p).getLast? = (l.filter p).getLast? := by
  simp [List.filter_append, List.filter_cons, he]

/-- The record step preserves the invariant (for class lists produced by
the splitter). -/
theorem StInv_visit (side tagS : String) (el_id : Option String)
    (classes : List String) (parent_id : Option String) (st : WalkState)
    (hcl : ∀ tok ∈ classes,
      tok.isEmpty = false ∧ ' ' ∉ tok.data ∧ '\n' ∉ tok.data)
    (h : StInv st) : StInv (visit side tagS el_id classes parent_id st) := by
  by_cases hg : tagS = "g"
  · subst hg
    rw [visit, if_pos rfl]
    by_cases hid : truthy el_id = true
    · obtain ⟨s0, rfl, hne⟩ := truthy_eq_some hid
      by_cases hcls : classes.isEmpty = true
      · -- identified, no classes
        have hclnil : classes = [] := List.isEmpty_iff.mp hcls
        subst hclnil
        simp only [hid, if_true, List.isEmpty_nil, idVal, Option.getD_some]
        constructor
        · simp [h.total_eq]
        · simp [h.groups_eq]
        · simp [filter_length_append, h.with_id_eq, hid]
        · simp [filter_length_append, h.with_class_eq]
        · intro k hk
          simp only [lookup_dictInsert]
          by_cases hks : k = s0
          · subst hks
            rw [if_pos rfl, getLast?_filter_append_pos]
            simp
          · rw [if_neg hks, getLast?_filter_append_neg, h.byId_lookup k hk]
            simp only [decide_eq_false_iff_not, Option.some_inj]
            exact fun hh => hks hh.symm
        · exact h.cti_keys_nodup
        · intro c y
          rw [h.cti_mem c y]
          constructor
          · rintro ⟨e, he, h1, h2, h3⟩
            exact ⟨e, List.mem_append_left _ he, h1, h2, h3⟩
          · rintro ⟨e, he, h1, h2, h3⟩
            rcases List.mem_append.mp he with he | he
            · exact ⟨e, he, h1, h2, h3⟩
            · simp only [List.mem_singleton] at he
              subst he
              simp only at h3
              simp at h3
        · exact h.cti_vals
        · intro e he
          rcases List.mem_append.mp he with he | he
          · exact h.classes_ok e he
          · simp only [List.mem_singleton] at he
            subst he
            exact hcl
      · -- identified, with classes
        simp only [hid, if_true, hcls, if_false, Bool.false_eq_true,
          idVal, Option.getD_some]
        constructor
        · simp [h.total_eq]
        · simp [h.groups_eq]
        · simp [filter_length_append, h.with_id_eq, hid]
        · simp [filter_length_append, h.with_class_eq, hcls]
        · intro k hk
          simp only [lookup_dictInsert]
          by_cases hks : k = s0
          · subst hks
            rw [if_pos rfl, getLast?_filter_append_pos]
            simp
          · rw [if_neg hks, getLast?_filter_append_neg, h.byId_lookup k hk]
            simp only [decide_eq_false_iff_not, Option.some_inj]
            exact fun hh => hks hh.symm
        · exact nodup_keys_cti_fold _ classes _ h.cti_keys_nodup
        · intro c y
          rw [cti_fold_mem, h.cti_mem c y]
          constructor
          · rintro (⟨e, he, h1, h2, h3⟩ | ⟨hc, rfl⟩)
            · exact ⟨e, List.mem_append_left _ he, h1, h2, h3⟩
            · exact ⟨_, List.mem_append_right _ (List.mem_singleton_self _),
                rfl, hid, hc⟩
          · rintro ⟨e, he, h1, h2, h3⟩
            rcases List.mem_append.mp he with he | he
            · exact Or.inl ⟨e, he, h1, h2, h3⟩
            · simp only [List.mem_singleton] at he
              subst he
              simp only at h1 h3
              obtain rfl := Option.some_inj.mp h1
              exact Or.inr ⟨h3, rfl⟩
        · exact @vals_cti_fold (fun s => s ≠ [] ∧ s.Nodup) s0 (by simp)
            (fun s hs => ⟨addSet_ne_nil s0 s, addSet_nodup s0 s hs.2⟩)
            classes st.classToIds h.cti_vals
        · intro e he
          rcases List.mem_append.mp he with he | he
          · exact h.classes_ok e he
          · simp only [List.mem_singleton] at he
            subst he
            exact hcl
    · -- unidentified (id absent or empty)
      have hid' : truthy el_id = false := Bool.eq_false_iff.mpr hid
      by_cases hcls : classes.isEmpty = true
      · have hclnil : classes = [] := List.isEmpty_iff.mp hcls
        subst hclnil
        simp only [hid', Bool.false_eq_true, if_false, List.isEmpty_nil, if_true]
        constructor
        · simp [h.total_eq]
        · simp [h.groups_eq]
        · simp [filter_length_append, h.with_id_eq, hid']
        · simp [filter_length_append, h.with_class_eq]
        · intro k hk
          rw [h.byId_lookup k hk, getLast?_filter_append_neg]
          simp only [decide_eq_false_iff_not]
          exact not_truthy_ne_some hid' hk
        · exact h.cti_keys_nodup
        · intro c y
          rw [h.cti_mem c y]
          constructor
          · rintro ⟨e, he, h1, h2, h3⟩
            exact ⟨e, List.mem_append_left _ he, h1, h2, h3⟩
          · rintro ⟨e, he, h1, h2, h3⟩
            rcases List.mem_append.mp he with he | he
            · exact ⟨e, he, h1, h2, h3⟩
            · simp only [List.mem_singleton] at he
              subst he
              simp only at h3
              simp at h3
        · exact h.cti_vals
        · intro e he
          rcases List.mem_append.mp he with he | he
          · exact h.classes_ok e he
          · simp only [List.mem_singleton] at he
            subst he
            exact hcl
      · simp only [hid', Bool.false_eq_true, if_false, hcls]
        constructor
        · simp [h.total_eq]
        · simp [h.groups_eq]
        · simp [filter_length_append, h.with_id_eq, hid']
        · simp [filter_length_append, h.with_class_eq, hcls]
        · intro k hk
          rw [h.byId_lookup k hk, getLast?_filter_append_neg]
          simp only [decide_eq_false_iff_not]
          exact not_truthy_ne_some hid' hk
        · exact h.cti_keys_nodup
        · intro c y
          rw [h.cti_mem c y]
          constructor
          · rintro ⟨e, he, h1, h2, h3⟩
            exact ⟨e, List.mem_append_left _ he, h1, h2, h3⟩
          · rintro ⟨e, he, h1, h2, h3⟩
            rcases List.mem_append.mp he with he | he
            · exact ⟨e, he, h1, h2, h3⟩
            · simp only [List.mem_singleton] at he
              subst he
              simp only at h2
              rw [hid'] at h2
              cases h2
        · exact h.cti_vals
        · intro e he
          rcases List.mem_append.mp he with he | he
          · exact h.classes_ok e he
          · simp only [List.mem_singleton] at he
            subst he
            exact hcl
  · rw [visit, if_neg hg]
    exact h

/-! ### Invariant preservation through the recursion -/

theorem rec_children_inv (side : String) : ∀ (cs : List SvgNode)
    (p : Option String) (st st' : WalkState),
    (∀ c ∈ cs, ∀ (p : Option String) (st st' : WalkState),
      StInv st → rec_node side c p st = some st' → StInv st') →
    StInv st → rec_children side cs p st = some st' → StInv st' := by
  intro cs
  induction cs with
  | nil =>
    intro p st st' _ hst heq
    rw [rec_children] at heq
    cases heq
    exact hst
  | cons c rest ih =>
    intro p st st' hall hst heq
    rw [rec_children] at heq
    cases hr : rec_node side c p st with
    | none => rw [hr] at heq; cases heq
    | some st1 =>
      rw [hr] at heq
      exact ih p st1 st' (fun c' hc' => hall c' (List.mem_cons_of_mem _ hc'))
        (hall c (List.mem_cons_self _ _) p st st1 hst hr) heq

theorem rec_node_inv : ∀ (n : SvgNode) (side : String) (p : Option String)
    (st st' : WalkState),
    StInv st → rec_node side n p st = some st' → StInv st' := by
  refine SvgNode.strongInduction ?_
  intro t i c ch IH side p st st' hst heq
  rw [rec_node] at heq
  cases hsn : strip_ns t with
  | none => rw [hsn] at heq; cases heq
  | some tag =>
    rw [hsn] at heq
    exact rec_children_inv side ch _ _ _ (fun m hm => IH m hm side)
      (StInv_visit side tag i (splitClasses (c.getD "")) p st
        (splitClasses_tokens _) hst) heq

/-- Every successful walk decomposes into a reachable (invariant)
state plus the finalization of line 101. -/
theorem walk_inv (root : SvgNode) (side : String) (idx : DocumentIndex)
    (h : walk_svg_groups root side = some idx) :
    ∃ st, StInv st ∧
      idx.elements = st.elements ∧ idx.byId = st.byId ∧
      idx.counts = st.counts ∧
      idx.classToIds = (sortPairsByKey st.classToIds).map
        (fun kv => (kv.1, sortStrings kv.2)) := by
  unfold walk_svg_groups at h
  cases hr : rec_node side root none initState with
  | none => rw [hr] at h; cases h
  | some st =>
    rw [hr] at h
    simp only [Option.map_some'] at h
    obtain rfl := (Option.some_inj.mp h).symm
    exact ⟨st, rec_node_inv root side none initState st StInv_init hr,
      rfl, rfl, rfl, rfl⟩

/-! ### Sorting lemmas for the finalization step -/

theorem sortStrings_perm (l : List String) : List.Perm (sortStrings l) l :=
  List.perm_insertionSort _ l

theorem sortStrings_sorted (l : List String) :
    (sortStrings l).Sorted (fun a b => pyStrLe a b = true) :=
  List.sorted_insertionSort _ l

theorem sortPairsByKey_perm (m : List (String × List String)) :
    List.Perm (sortPairsByKey m) m :=
  List.perm_insertionSort _ m

theorem sortPairsByKey_sorted (m : List (String × List String)) :
    (sortPairsByKey m).Sorted (fun p q => pyStrLe p.1 q.1 = true) :=
  List.sorted_insertionSort _ m

/-- The finalized `classToIds` of a walk, as a function of the reachable
state. -/
theorem finalize_keys (m : List (String × List String)) :
    ((sortPairsByKey m).map (fun kv => (kv.1, sortStrings kv.2))).map Prod.fst =
      (sortPairsByKey m).map Prod.fst := by
  rw [List.map_map]
  rfl

/-! ### C4: counts -/

/-- C4: for every document, `counts.total = counts.groups = length
elements`, `with_id` counts the recorded elements with a truthy id and
`with_class` those with at least one class token. -/
theorem counts_spec : ∀ (root : SvgNode) (side : String)
    (idx : DocumentIndex), walk_svg_groups root side = some idx →
    idx.counts.total = idx.elements.length ∧
    idx.counts.groups = idx.elements.length ∧
    idx.counts.with_id =
      (idx.elements.filter (fun e => truthy e.id)).length ∧
    idx.counts.with_class =
      (idx.elements.filter (fun e => !e.classes.isEmpty)).length := by
  intro root side idx h
  obtain ⟨st, hinv, he, _, hc, _⟩ := walk_inv root side idx h
  rw [he, hc]
  exact ⟨hinv.total_eq, hinv.groups_eq, hinv.with_id_eq, hinv.with_class_eq⟩

/-- C4 witness: the counts equations on the duplicate-id document. -/
theorem counts_spec_witness :
    dupIdIndex.counts.total = dupIdIndex.elements.length ∧
    dupIdIndex.counts.with_id =
      (dupIdIndex.elements.filter (fun e => truthy e.id)).length :=
  ⟨(counts_spec dupIdExample "back" dupIdIndex (by decide)).1,
   (counts_spec dupIdExample "back" dupIdIndex (by decide)).2.2.1⟩

/-! ### C2: byId is last-write-wins -/

/-- C2: for every recorded element with a non-empty id, `byId` maps that
id to the last recorded element carrying it in document pre-order; when
the id is unique it maps to the element itself; all earlier duplicates
remain in `elements`. -/
theorem byId_last_write_wins : ∀ (root : SvgNode) (side : String)
    (idx : DocumentIndex), walk_svg_groups root side = some idx →
    ∀ e ∈ idx.elements, ∀ s : String, e.id = some s → s ≠ "" →
      idx.byId.lookup s =
        (idx.elements.filter (fun e' => e'.id = some s)).getLast? ∧
      ((idx.elements.filter (fun e' => e'.id = some s)).length = 1 →
        idx.byId.lookup s = some e) := by
  intro root side idx h e hmem s hid hs
  obtain ⟨st, hinv, he, hb, _, _⟩ := walk_inv root side idx h
  have h1 : idx.byId.lookup s =
      (idx.elements.filter (fun e' => e'.id = some s)).getLast? := by
    rw [he, hb]
    exact hinv.byId_lookup s hs
  refine ⟨h1, fun hlen => ?_⟩
  obtain ⟨a, ha⟩ := List.length_eq_one.mp hlen
  have hef : e ∈ idx.elements.filter (fun e' => e'.id = some s) :=
    List.mem_filter.mpr ⟨hmem, by simp [hid]⟩
  rw [ha] at hef
  rw [h1, ha]
  simp only [List.mem_singleton] at hef
  rw [hef]
  rfl

/-- C2 witness: on the duplicate-id document, `byId["X"]` is the last of
the two elements carrying id `"X"`. -/
theorem byId_last_write_wins_witness :
    dupIdIndex.byId.lookup "X" =
      (dupIdIndex.elements.filter (fun e' => e'.id = some "X")).getLast? :=
  (byId_last_write_wins dupIdExample "back" dupIdIndex (by decide)
    ⟨some "X", ["b", "a"], "g", none, "back"⟩ (by decide) "X" rfl
    (by decide)).1

/-! ### C3: the finalized classToIds -/

/-- C3: the finalized `classToIds` has lexicographically sorted,
duplicate-free keys, exactly the class tokens of recorded elements with
a non-empty id; each value is a sorted duplicate-free list holding
exactly the ids of the recorded elements that carry the key token and
have a non-empty id. -/
theorem classToIds_spec : ∀ (root : SvgNode) (side : String)
    (idx : DocumentIndex), walk_svg_groups root side = some idx →
    (idx.classToIds.map Prod.fst).Sorted (fun a b => pyStrLe a b = true) ∧
    (idx.classToIds.map Prod.fst).Nodup ∧
    (∀ c : String, c ∈ idx.classToIds.map Prod.fst ↔
      ∃ e ∈ idx.elements, truthy e.id = true ∧ c ∈ e.classes) ∧
    (∀ c s, (c, s) ∈ idx.classToIds →
      s.Sorted (fun a b => pyStrLe a b = true) ∧ s.Nodup ∧
      (∀ y, y ∈ s ↔
        ∃ e ∈ idx.elements, e.id = some y ∧ truthy e.id = true ∧
          c ∈ e.classes)) := by
  intro root side idx h
  obtain ⟨st, hinv, he, _, _, hcti⟩ := walk_inv root side idx h
  have hperm : List.Perm (sortPairsByKey st.classToIds) st.classToIds :=
    sortPairsByKey_perm _
  have hkeys : idx.classToIds.map Prod.fst =
      (sortPairsByKey st.classToIds).map Prod.fst := by
    rw [hcti]; exact finalize_keys _
  have hkeysperm : List.Perm ((sortPairsByKey st.classToIds).map Prod.fst)
      (st.classToIds.map Prod.fst) := hperm.map _
  refine ⟨?_, ?_, ?_, ?_⟩
  · rw [hkeys]
    exact List.Pairwise.map _ (fun a b hab => hab) (sortPairsByKey_sorted _)
  · rw [hkeys]
    exact hkeysperm.nodup_iff.mpr hinv.cti_keys_nodup
  · intro c
    rw [he, hkeys, hkeysperm.mem_iff]
    constructor
    · intro hc
      obtain ⟨⟨c', s⟩, hmem, hfst⟩ := List.mem_map.mp hc
      subst hfst
      have hlk : st.classToIds.lookup c' = some s :=
        (lookup_eq_some_iff_mem hinv.cti_keys_nodup c' s).mpr hmem
      obtain ⟨hne, _⟩ := hinv.cti_vals (c', s) hmem
      obtain ⟨y, hy⟩ := List.exists_mem_of_ne_nil s hne
      obtain ⟨e, hemem, _, htr, hcl⟩ :=
        (hinv.cti_mem c' y).mp ⟨s, hlk, hy⟩
      exact ⟨e, hemem, htr, hcl⟩
    · rintro ⟨e, hemem, htr, hcl⟩
      obtain ⟨y, hy, _⟩ := truthy_eq_some htr
      obtain ⟨s, hlk, _⟩ := (hinv.cti_mem c y).mpr ⟨e, hemem, hy, htr, hcl⟩
      exact List.mem_map.mpr ⟨(c, s),
        (lookup_eq_some_iff_mem hinv.cti_keys_nodup c s).mp hlk, rfl⟩
  · intro c s hmem
    rw [hcti] at hmem
    obtain ⟨⟨c', s0⟩, hmem0, heq⟩ := List.mem_map.mp hmem
    obtain ⟨rfl, rfl⟩ : c' = c ∧ sortStrings s0 = s := by
      constructor <;> [exact congrArg Prod.fst heq; exact congrArg Prod.snd heq]
    have hmem0' : (c', s0) ∈ st.classToIds := hperm.mem_iff.mp hmem0
    have hlk : st.classToIds.lookup c' = some s0 :=
      (lookup_eq_some_iff_mem hinv.cti_keys_nodup c' s0).mpr hmem0'
    obtain ⟨_, hnd⟩ := hinv.cti_vals (c', s0) hmem0'
    refine ⟨sortStrings_sorted s0, ((sortStrings_perm s0).nodup_iff).mpr hnd,
      fun y => ?_⟩
    rw [(sortStrings_perm s0).mem_iff, he]
    constructor
    · intro hy
      exact (hinv.cti_mem c' y).mp ⟨s0, hlk, hy⟩
    · intro hex
      obtain ⟨s1, hlk1, hy1⟩ := (hinv.cti_mem c' y).mpr hex
      rw [hlk] at hlk1
      cases hlk1
      exact hy1

/-- C3 witness: on the duplicate-id document the finalized keys are the
sorted class tokens `a < b < c`. -/
theorem classToIds_spec_witness :
    (dupIdIndex.classToIds.map Prod.fst).Sorted
      (fun a b => pyStrLe a b = true) :=
  (classToIds_spec dupIdExample "back" dupIdIndex (by decide)).1

/-! ### C5 (amended): class splitting -/

/-- C5 (amended): the classes of every visited node are the `class`
attribute with newlines replaced by spaces, split on the space
character, empty tokens dropped, in source order; hence no token is
empty or contains a space or newline — but other whitespace (tabs)
survives inside tokens. -/
theorem class_split_spec :
    (∀ raw : String,
      splitClasses raw =
        ((splitSpaces (replaceNl raw.data)).filter
          (fun t => ¬ t.isEmpty)).map String.mk ∧
      ∀ tok ∈ splitClasses raw,
        tok.isEmpty = false ∧ ' ' ∉ tok.data ∧ '\n' ∉ tok.data) ∧
    (∀ (root : SvgNode) (side : String) (idx : DocumentIndex),
      walk_svg_groups root side = some idx →
      ∀ e ∈ idx.elements, ∀ tok ∈ e.classes,
        tok.isEmpty = false ∧ ' ' ∉ tok.data ∧ '\n' ∉ tok.data) := by
  constructor
  · intro raw
    exact ⟨rfl, splitClasses_tokens raw⟩
  · intro root side idx h e hmem tok htok
    obtain ⟨st, hinv, he, _, _, _⟩ := walk_inv root side idx h
    rw [he] at hmem
    exact hinv.classes_ok e hmem tok htok

/-- C5 witness: the splitter applied to the token list `"b a"`. -/
theorem class_split_spec_witness :
    ("b" : String).isEmpty = false ∧ ' ' ∉ ("b" : String).data ∧
      '\n' ∉ ("b" : String).data :=
  (class_split_spec.1 "b a").2 "b" (by decide)

/-! ### C8: loader failures and the run outcome -/

theorem tagsOkList_mem : ∀ (cs : List SvgNode), tagsOkList cs = true →
    ∀ c ∈ cs, c.tagsOk = true := by
  intro cs
  induction cs with
  | nil =>
    intro _ c hc
    simp at hc
  | cons a rest ih =>
    intro h c hc
    rw [tagsOkList, Bool.and_eq_true] at h
    obtain ⟨h1, h2⟩ := h
    rcases List.mem_cons.mp hc with rfl | hc'
    · exact h1
    · exact ih h2 c hc'

theorem rec_children_total (side : String) : ∀ (cs : List SvgNode),
    (∀ c ∈ cs, ∀ (p : Option String) (st : WalkState),
      ∃ st', rec_node side c p st = some st') →
    ∀ (p : Option String) (st : WalkState),
      ∃ st', rec_children side cs p st = some st' := by
  intro cs
  induction cs with
  | nil =>
    intro _ p st
    exact ⟨st, by rw [rec_children]⟩
  | cons c rest ih =>
    intro hall p st
    obtain ⟨st1, h1⟩ := hall c (List.mem_cons_self _ _) p st
    obtain ⟨st2, h2⟩ :=
      ih (fun c' hc' => hall c' (List.mem_cons_of_mem _ hc')) p st1
    refine ⟨st2, ?_⟩
    rw [rec_children]
    rw [h1]
    exact h2

/-- On a document whose tags all strip, the walker never fails. -/
theorem rec_node_total : ∀ (n : SvgNode), n.tagsOk = true →
    ∀ (side : String) (p : Option String) (st : WalkState),
      ∃ st', rec_node side n p st = some st' := by
  refine SvgNode.strongInduction ?_
  intro t i c ch IH hok side p st
  rw [SvgNode.tagsOk, Bool.and_eq_true] at hok
  obtain ⟨hts, hch⟩ := hok
  cases hsn : strip_ns t with
  | none => rw [hsn] at hts; cases hts
  | some tag =>
    obtain ⟨st', h⟩ := rec_children_total side ch
      (fun m hm => IH m hm (tagsOkList_mem ch hch m hm) side) _ _
    refine ⟨st', ?_⟩
    rw [rec_node]
    rw [hsn]
    exact h

theorem walk_total (root : SvgNode) (h : root.tagsOk = true) (side : String) :
    ∃ idx, walk_svg_groups root side = some idx := by
  obtain ⟨st, hst⟩ := rec_node_total root h side none initState
  unfold walk_svg_groups
  rw [hst]
  exact ⟨_, rfl⟩

theorem parse_svg_ok_files (fs : FileSystem) (p : String)
    (hint : Option String) (root : SvgNode) (side : String)
    (h : parse_svg fs p hint = Except.ok (root, side)) :
    fs.files p = some (some root) := by
  unfold parse_svg at h
  cases hf : fs.files p with
  | none => rw [hf] at h; cases h
  | some o =>
    cases o with
    | none => rw [hf] at h; cases h
    | some r =>
      rw [hf] at h
      cases h
      rfl

/-- C8: the loader fails exactly on a missing or unparsable input; any
such failure ends the run with exit code 2, a diagnostic on the error
stream, and no output; when both documents load, the run writes the
combined output and exits 0. -/
theorem loader_run_spec : ∀ (fs : FileSystem) (front back : String),
    (∀ (path : String) (hint : Option String),
      (∃ msg, parse_svg fs path hint = Except.error msg) ↔
        (fs.files path = none ∨ fs.files path = some none)) ∧
    ((runWith fs front back).exitCode = 2 ↔
      ((∃ msg, parse_svg fs front none = Except.error msg) ∨
        (∃ msg, parse_svg fs back none = Except.error msg))) ∧
    ((runWith fs front back).exitCode = 2 →
      (runWith fs front back).output = none ∧
        (runWith fs front back).stderr ≠ []) ∧
    ((runWith fs front back).exitCode = 0 ↔
      ((∃ v, parse_svg fs front none = Except.ok v) ∧
        (∃ v, parse_svg fs back none = Except.ok v))) ∧
    ((runWith fs front back).exitCode = 0 →
      ∃ out, (runWith fs front back).output = some out) ∧
    main fs = runWith fs FRONT_SVG BACK_SVG := by
  intro fs front back
  have hparse : ∀ (path : String) (hint : Option String),
      (∃ msg, parse_svg fs path hint = Except.error msg) ↔
        (fs.files path = none ∨ fs.files path = some none) := by
    intro path hint
    unfold parse_svg
    cases hf : fs.files path with
    | none => simp
    | some o =>
      cases o with
      | none => simp
      | some root => simp
  refine ⟨hparse, ?_, ?_, ?_, ?_, rfl⟩ <;>
    (unfold runWith
     cases hf : parse_svg fs front none with
     | error msg => simp [hf]
     | ok v =>
       obtain ⟨rootf, sidef⟩ := v
       cases hb : parse_svg fs back none with
       | error msg => simp [hf, hb]
       | ok w =>
         obtain ⟨rootb, sideb⟩ := w
         obtain ⟨idxf, hwf⟩ := walk_total rootf
           (fs.wf front rootf (parse_svg_ok_files fs front none rootf sidef hf))
           sidef
         obtain ⟨idxb, hwb⟩ := walk_total rootb
           (fs.wf back rootb (parse_svg_ok_files fs back none rootb sideb hb))
           sideb
         simp [hwf, hwb])

/-- C8 witness: on an empty file system the run exits with code 2,
writes nothing and reports a diagnostic. -/
theorem loader_run_spec_witness :
    (runWith fsEmpty "front.svg" "back.svg").output = none ∧
      (runWith fsEmpty "front.svg" "back.svg").stderr ≠ [] :=
  (loader_run_spec fsEmpty "front.svg" "back.svg").2.2.1 rfl

/-! ### C9: the two slug functions agree -/

theorem toNat_ofNat_valid (n : Nat) (h : n.isValidChar) :
    (Char.ofNat n).toNat = n := by
  unfold Char.ofNat
  rw [dif_pos h]
  unfold Char.ofNatAux Char.toNat
  simp [UInt32.toNat, BitVec.toNat_ofNatLt]

/-- Lowered characters are never in `A-Z`, so the two alphanumeric
classes agree on them. -/
theorem isAlnum_pyLowerChar (c : Char) :
    isAlnum (pyLowerChar c) = isLowerAlnum (pyLowerChar c) := by
  unfold pyLowerChar isAlnum isLowerAlnum
  by_cases h : 65 ≤ c.toNat ∧ c.toNat ≤ 90
  · rw [if_pos h, toNat_ofNat_valid (c.toNat + 32) (Or.inl (by omega)),
      decide_eq_decide]
    omega
  · rw [if_neg h, decide_eq_decide]
    rcases not_and_or.mp h with h' | h' <;> omega

/-- Lowering does not change whether a character is Python whitespace. -/
theorem isPySpace_pyLowerChar (c : Char) :
    isPySpace (pyLowerChar c) = isPySpace c := by
  unfold pyLowerChar isPySpace
  by_cases h : 65 ≤ c.toNat ∧ c.toNat ≤ 90
  · rw [if_pos h, toNat_ofNat_valid (c.toNat + 32) (Or.inl (by omega)),
      decide_eq_decide]
    omega
  · rw [if_neg h]

theorem isPySpace_not_lowerAlnum (c : Char) (h : isPySpace c = true) :
    isLowerAlnum c = false := by
  unfold isPySpace at h
  unfold isLowerAlnum
  rw [decide_eq_true_eq] at h
  rw [decide_eq_false_iff_not]
  omega

/-- `re.sub` over equal character classes gives equal results. -/
theorem subRuns_congr (p q : Char → Bool) : ∀ (l : List Char) (b : Bool),
    (∀ c ∈ l, p c = q c) → subRuns p l b = subRuns q l b := by
  intro l
  induction l with
  | nil => intro b _; rfl
  | cons c cs ih =>
    intro b h
    have hc := h c (List.mem_cons_self _ _)
    have hrest := fun x hx => h x (List.mem_cons_of_mem _ hx)
    simp only [subRuns, hc]
    rw [ih false hrest, ih true hrest]

/-- `re.sub(r"[^X]+", "-")` never leaves two adjacent hyphens, so the
hyphen-squeezing pass of the xlsx slug is the identity on its output. -/
theorem squeeze_subRuns (p : Char → Bool) (hp : p '-' = false) :
    ∀ (l : List Char) (inRun afterH : Bool), (afterH = true → inRun = true) →
      squeezeHyphens (subRuns p l inRun) afterH = subRuns p l inRun := by
  intro l
  induction l with
  | nil => intro inRun afterH _; rfl
  | cons c cs ih =>
    intro inRun afterH himp
    cases hc : p c with
    | true =>
      have hcd : ¬ c = '-' := fun hh => by
        rw [hh, hp] at hc
        cases hc
      simp only [subRuns, hc, if_true]
      simp only [squeezeHyphens, hcd, if_false]
      rw [ih false false (fun h => h)]
    | false =>
      cases hr : inRun with
      | true =>
        simp only [subRuns, hc, Bool.false_eq_true, if_false, if_true]
        exact ih true afterH (fun _ => rfl)
      | false =>
        have ha : afterH = false := by
          cases hA : afterH
          · rfl
          · rw [hA] at himp
            rw [himp rfl] at hr
            cases hr
        subst ha
        simp only [subRuns, hc, Bool.false_eq_true, if_false]
        simp [squeezeHyphens, ih true true (fun _ => rfl)]

theorem subRuns_true_append_nonp (p : Char → Bool) :
    ∀ (ws rest : List Char), (∀ c ∈ ws, p c = false) →
      subRuns p (ws ++ rest) true = subRuns p rest true := by
  intro ws
  induction ws with
  | nil => intro rest _; rfl
  | cons w t ih =>
    intro rest hws
    have hw : p w = false := hws w (List.mem_cons_self _ _)
    simp only [List.cons_append, subRuns, hw, Bool.false_eq_true, if_false,
      if_true]
    exact ih rest (fun c hc => hws c (List.mem_cons_of_mem _ hc))

theorem subRuns_true_all_nonp (p : Char → Bool) (ws : List Char)
    (hws : ∀ c ∈ ws, p c = false) : subRuns p ws true = [] := by
  have h := subRuns_true_append_nonp p ws [] hws
  rw [List.append_nil] at h
  exact h

/-- In the in-run state the substituted output never starts with a
hyphen. -/
theorem dropWhile_hyph_subRuns_true (p : Char → Bool) (hp : p '-' = false) :
    ∀ l : List Char,
      (subRuns p l true).dropWhile (fun c => c = '-') = subRuns p l true := by
  intro l
  induction l with
  | nil => rfl
  | cons c cs ih =>
    cases hc : p c with
    | false =>
      simp only [subRuns, hc, Bool.false_eq_true, if_false, if_true]
      exact ih
    | true =>
      have hcd : ¬ c = '-' := fun hh => by
        rw [hh, hp] at hc
        cases hc
      simp only [subRuns, hc, if_true, List.dropWhile_cons]
      rw [if_neg (by simpa using hcd)]

/-- Dropping the leading hyphens erases the difference between the two
starting states of the run-substitution. -/
theorem dropWhile_hyph_subRuns_false (p : Char → Bool) (hp : p '-' = false) :
    ∀ l : List Char,
      (subRuns p l false).dropWhile (fun c => c = '-') = subRuns p l true := by
  intro l
  cases l with
  | nil => rfl
  | cons c cs =>
    cases hc : p c with
    | true =>
      have hcd : ¬ c = '-' := fun hh => by
        rw [hh, hp] at hc
        cases hc
      simp only [subRuns, hc, if_true, List.dropWhile_cons]
      rw [if_neg (by simpa using hcd)]
    | false =>
      simp only [subRuns, hc, Bool.false_eq_true, if_false, if_true,
        List.dropWhile_cons]
      rw [if_pos (by simp)]
      exact dropWhile_hyph_subRuns_true p hp cs

theorem dropWhile_subRuns_wsPre (p : Char → Bool) (hp : p '-' = false)
    (ws rest : List Char) (hws : ∀ c ∈ ws, p c = false) :
    (subRuns p (ws ++ rest) false).dropWhile (fun c => c = '-') =
      (subRuns p rest false).dropWhile (fun c => c = '-') := by
  rw [dropWhile_hyph_subRuns_false p hp, dropWhile_hyph_subRuns_false p hp,
    subRuns_true_append_nonp p ws rest hws]

/-- A trailing run of characters outside the class only adds a trailing
hyphen, which the right strip removes. -/
theorem rdrop_hyph_subRuns_wsSuf (p : Char → Bool)
    (ws : List Char) (hws : ∀ c ∈ ws, p c = false) :
    ∀ (l : List Char) (b : Bool),
      rdropWhileP (fun c => c = '-') (subRuns p (l ++ ws) b) =
        rdropWhileP (fun c => c = '-') (subRuns p l b) := by
  intro l
  induction l with
  | nil =>
    intro b
    cases b with
    | true =>
      rw [List.nil_append, subRuns_true_all_nonp p ws hws]
      rfl
    | false =>
      rw [List.nil_append]
      cases ws with
      | nil => rfl
      | cons w t =>
        have hw : p w = false := hws w (List.mem_cons_self _ _)
        simp only [subRuns, hw, Bool.false_eq_true, if_false]
        rw [subRuns_true_all_nonp p t
          (fun c hc => hws c (List.mem_cons_of_mem _ hc))]
        rfl
  | cons c cs ih =>
    intro b
    cases hc : p c with
    | true =>
      simp only [List.cons_append, subRuns, hc, if_true]
      simp only [rdropWhileP, List.append_eq]
      rw [ih false]
    | false =>
      cases b with
      | true =>
        simp only [List.cons_append, subRuns, hc, Bool.false_eq_true,
          if_false, if_true]
        exact ih true
      | false =>
        simp only [List.cons_append, subRuns, hc, Bool.false_eq_true, if_false]
        simp only [rdropWhileP, List.append_eq]
        rw [ih true]

/-- Left strip and right strip commute. -/
theorem dropWhile_rdropWhileP (p : Char → Bool) :
    ∀ l : List Char,
      (rdropWhileP p l).dropWhile p = rdropWhileP p (l.dropWhile p) := by
  intro l
  induction l with
  | nil => rfl
  | cons c cs ih =>
    cases hc : p c with
    | true =>
      cases hr : (rdropWhileP p cs).isEmpty with
      | true =>
        have hnil : rdropWhileP p cs = [] := by
          cases hx : rdropWhileP p cs
          · rfl
          · rw [hx] at hr; cases hr
        have e1 : ((rdropWhileP p cs).isEmpty && p c) = true := by
          rw [hr, hc]
          rfl
        simp only [rdropWhileP]
        rw [if_pos e1, List.dropWhile_cons, if_pos (show p c = true from hc),
          ← ih, hnil]
      | false =>
        have e1 : ((rdropWhileP p cs).isEmpty && p c) = false := by
          rw [hr, hc]
          rfl
        simp only [rdropWhileP]
        rw [if_neg (by rw [e1]; exact Bool.false_ne_true),
          List.dropWhile_cons, List.dropWhile_cons,
          if_pos (show p c = true from hc), if_pos (show p c = true from hc)]
        exact ih
    | false =>
      have e1 : ((rdropWhileP p cs).isEmpty && p c) = false := by
        rw [hc]
        exact Bool.and_false _
      simp only [rdropWhileP]
      rw [if_neg (by rw [e1]; exact Bool.false_ne_true),
        List.dropWhile_cons, List.dropWhile_cons]
      rw [if_neg (by rw [hc]; exact Bool.false_ne_true),
        if_neg (by rw [hc]; exact Bool.false_ne_true)]
      simp only [rdropWhileP]
      rw [if_neg (by rw [e1]; exact Bool.false_ne_true)]

theorem map_dropWhile_comm (f : Char → Char) (p : Char → Bool)
    (h : ∀ c, p (f c) = p c) :
    ∀ l : List Char, (l.dropWhile p).map f = (l.map f).dropWhile p := by
  intro l
  induction l with
  | nil => rfl
  | cons c cs ih =>
    simp only [List.map_cons, List.dropWhile_cons, h c]
    cases hc : p c with
    | true =>
      simp only [if_pos]
      exact ih
    | false =>
      simp only [Bool.false_eq_true, if_false, List.map_cons]

theorem map_rdropWhileP_comm (f : Char → Char) (p : Char → Bool)
    (h : ∀ c, p (f c) = p c) :
    ∀ l : List Char, (rdropWhileP p l).map f = rdropWhileP p (l.map f) := by
  intro l
  induction l with
  | nil => rfl
  | cons c cs ih =>
    simp only [List.map_cons, rdropWhileP, h c]
    rw [← ih]
    have hie : ((rdropWhileP p cs).map f).isEmpty = (rdropWhileP p cs).isEmpty := by
      cases rdropWhileP p cs <;> rfl
    rw [hie]
    cases hcond : ((rdropWhileP p cs).isEmpty && p c) with
    | true => simp [hcond]
    | false => simp [hcond]

/-- Every list is its right strip followed by a run of stripped
characters. -/
theorem rdrop_decomp (p : Char → Bool) :
    ∀ l : List Char, ∃ t, l = rdropWhileP p l ++ t ∧ ∀ c ∈ t, p c = true := by
  intro l
  induction l with
  | nil => exact ⟨[], rfl, by simp⟩
  | cons c cs ih =>
    obtain ⟨t, ht, hall⟩ := ih
    cases hcond : ((rdropWhileP p cs).isEmpty && p c) with
    | true =>
      rw [Bool.and_eq_true] at hcond
      obtain ⟨h1, h2⟩ := hcond
      have hnil : rdropWhileP p cs = [] := by
        cases hx : rdropWhileP p cs
        · rfl
        · rw [hx] at h1; cases h1
      refine ⟨c :: cs, ?_, ?_⟩
      · simp only [rdropWhileP, hnil, h2]
        rfl
      · intro x hx
        rcases List.mem_cons.mp hx with rfl | hx'
        · exact h2
        · apply hall
          rw [hnil, List.nil_append] at ht
          rw [← ht]
          exact hx'
    | false =>
      refine ⟨t, ?_, hall⟩
      simp only [rdropWhileP, hcond, Bool.false_eq_true, if_false]
      rw [List.cons_append, ← ht]

theorem stripH_subRuns_wsPre (p : Char → Bool) (hp : p '-' = false)
    (ws rest : List Char) (hws : ∀ c ∈ ws, p c = false) :
    pyStripChars (fun c => c = '-') (subRuns p (ws ++ rest) false) =
      pyStripChars (fun c => c = '-') (subRuns p rest false) := by
  unfold pyStripChars
  rw [dropWhile_subRuns_wsPre p hp ws rest hws]

theorem stripH_subRuns_wsSuf (p : Char → Bool) (ws : List Char)
    (hws : ∀ c ∈ ws, p c = false) (l : List Char) (b : Bool) :
    pyStripChars (fun c => c = '-') (subRuns p (l ++ ws) b) =
      pyStripChars (fun c => c = '-') (subRuns p l b) := by
  unfold pyStripChars
  rw [← dropWhile_rdropWhileP, ← dropWhile_rdropWhileP,
    rdrop_hyph_subRuns_wsSuf p ws hws l b]

/-- C9: the slug function of the CSV pipeline (make_media_json.py) and
the slug function of the workbook pipeline (xlsx_links_to_json.py)
return the same string on every input, for any shared NFKD-and-ASCII
first step `nfkd` (that step is textually identical in the two files). -/
theorem slugify_equiv : ∀ (nfkd : String → String) (s : String),
    slugify_csv nfkd s = slugify_xlsx nfkd s := by
  intro nfkd s
  simp only [slugify_csv, slugify_xlsx]
  congr 1
  rw [squeeze_subRuns isAlnum (by decide)
    ((pyStripChars isPySpace (nfkd s).data).map pyLowerChar) false false
    (fun h => h)]
  rw [subRuns_congr isAlnum isLowerAlnum
    ((pyStripChars isPySpace (nfkd s).data).map pyLowerChar) false
    (fun c hc => by
      obtain ⟨c0, _, rfl⟩ := List.mem_map.mp hc
      exact isAlnum_pyLowerChar c0)]
  have hmap : (pyStripChars isPySpace (nfkd s).data).map pyLowerChar
      = pyStripChars isPySpace ((nfkd s).data.map pyLowerChar) := by
    unfold pyStripChars
    rw [map_rdropWhileP_comm pyLowerChar isPySpace isPySpace_pyLowerChar,
      map_dropWhile_comm pyLowerChar isPySpace isPySpace_pyLowerChar]
  rw [hmap]
  set L := (nfkd s).data.map pyLowerChar with hLdef
  have hws1 : ∀ c ∈ L.takeWhile isPySpace, isLowerAlnum c = false :=
    fun c hc => isPySpace_not_lowerAlnum c (List.mem_takeWhile_imp hc)
  obtain ⟨t, hdec, hallt⟩ := rdrop_decomp isPySpace (L.dropWhile isPySpace)
  have hws2 : ∀ c ∈ t, isLowerAlnum c = false :=
    fun c hc => isPySpace_not_lowerAlnum c (hallt c hc)
  calc pyStripChars (fun c => c = '-') (subRuns isLowerAlnum L false)
      = pyStripChars (fun c => c = '-')
          (subRuns isLowerAlnum
            (L.takeWhile isPySpace ++ L.dropWhile isPySpace) false) := by
        rw [List.takeWhile_append_dropWhile]
    _ = pyStripChars (fun c => c = '-')
          (subRuns isLowerAlnum (L.dropWhile isPySpace) false) :=
        stripH_subRuns_wsPre isLowerAlnum (by decide) _ _ hws1
    _ = pyStripChars (fun c => c = '-')
          (subRuns isLowerAlnum
            (rdropWhileP isPySpace (L.dropWhile isPySpace) ++ t) false) := by
        rw [← hdec]
    _ = pyStripChars (fun c => c = '-')
          (subRuns isLowerAlnum
            (rdropWhileP isPySpace (L.dropWhile isPySpace)) false) :=
        stripH_subRuns_wsSuf isLowerAlnum t hws2 _ false
    _ = pyStripChars (fun c => c = '-')
          (subRuns isLowerAlnum (pyStripChars isPySpace L) false) := rfl

end WRKT
